import Mathlib

/-!
Verification of the book-reader navigation core.

This file gives a shallow embedding, in Lean, of the segmentation and
navigation code of the repository:

* the paragraph / sentence / word segmentation used by
  src/hooks/useTextNavigation.ts (splitting on newline runs, the
  lookbehind-based sentence split with abbreviation re-merging, and the
  whitespace word split);
* the position state machine (moveToNextWord, moveToPreviousWord,
  moveToNextSentence) of the same hook;
* the reducer of src/context/BookReaderContext.tsx;
* the speech-synthesis lifecycle of src/hooks/useTTS.ts, modelled as an
  explicit event-step machine;
* the autoscroll cadence of the auto-scroll effect (setInterval with
  delay 60000 / wordsPerMinute).

JavaScript numbers that only ever hold non-negative integers in these code
paths are embedded as Nat; comparisons of the form i < xs.length - 1 on a
possibly-empty xs are embedded as i + 1 < xs.length, which agrees with the
JavaScript semantics for all non-negative i (for xs.length = 0 the
JavaScript comparison i < -1 is false, as is i + 1 < 0).
-/

namespace BookReader

/-- Whitespace class used by the JavaScript regexes (\s): the ASCII part
that can occur in the texts handled here. -/
def isWs (c : Char) : Bool :=
  c = ' ' || c = '\t' || c = '\n' || c = '\r' || c = Char.ofNat 11 || c = Char.ofNat 12

/-- Sentence-terminating punctuation of the regexes: period, bang, question mark. -/
def isPunct (c : Char) : Bool :=
  c = '.' || c = '!' || c = '?'

/-! ## Paragraph split: text.split(/\n+/)

A run of one or more newlines is a separator; parts between separators are
kept, including empty parts at the ends (JavaScript split keeps them). -/

/-- One pass over the characters.  sep = true means the previous character
was part of a newline run (so further newlines extend the same separator);
acc is the current part, reversed. -/
def paraGo : Bool → List Char → List Char → List (List Char)
  | _, acc, [] => [acc.reverse]
  | sep, acc, c :: rest =>
    if c = '\n' then
      if sep then paraGo true [] rest
      else acc.reverse :: paraGo true [] rest
    else paraGo false (c :: acc) rest

/-- text.split(/\n+/) on a character list. -/
def splitParagraphsL (l : List Char) : List (List Char) :=
  paraGo false [] l

/-- text.split(/\n+/): paragraph segmentation (the paragraphs local of
useTextNavigation.ts, TextDisplay.tsx and useTTS.ts). -/
def splitParagraphs (s : String) : List String :=
  (splitParagraphsL s.data).map (fun l => String.mk l)

/-! ## Raw sentence split: paragraph.split(/(?<=[.!?])\s+/)

A maximal whitespace run immediately preceded by . ! or ? is a separator.
Used directly (without abbreviation handling) by useTTS.ts and
TextDisplay.tsx, and as the first step of splitIntoSentences. -/

/-- Scanner mode: either building a part (remembering the previous
character, which is also the head of the reversed accumulator), or inside
a separator whitespace run. -/
inductive SentMode : Type
  | build (prev : Char) (acc : List Char) : SentMode
  | sep : SentMode

/-- One pass over the characters for the lookbehind split. -/
def sentGo : SentMode → List Char → List (List Char)
  | SentMode.build _ acc, [] => [acc.reverse]
  | SentMode.sep, [] => [[]]
  | SentMode.build prev acc, c :: rest =>
    if isPunct prev && isWs c then acc.reverse :: sentGo SentMode.sep rest
    else sentGo (SentMode.build c (c :: acc)) rest
  | SentMode.sep, c :: rest =>
    if isWs c then sentGo SentMode.sep rest
    else sentGo (SentMode.build c [c]) rest

/-- paragraph.split(/(?<=[.!?])\s+/) on a character list. -/
def sentSplitL (l : List Char) : List (List Char) :=
  match l with
  | [] => [[]]
  | c :: rest => sentGo (SentMode.build c [c]) rest

/-- paragraph.split(/(?<=[.!?])\s+/) on a string. -/
def sentSplitStr (s : String) : List String :=
  (sentSplitL s.data).map (fun l => String.mk l)

/-! ## Word split: sentence.match(/\S+/g) || [] -/

/-- Collect maximal non-whitespace runs; acc is the current word, reversed
(empty when not inside a word). -/
def wordsGo : List Char → List Char → List (List Char)
  | acc, [] => if acc.isEmpty then [] else [acc.reverse]
  | acc, c :: rest =>
    if isWs c then
      if acc.isEmpty then wordsGo [] rest else acc.reverse :: wordsGo [] rest
    else wordsGo (c :: acc) rest

/-- sentence.match(/\S+/g) || [] on a character list. -/
def splitWordsL (l : List Char) : List (List Char) :=
  wordsGo [] l

/-- sentence.match(/\S+/g) || []: the word list of a sentence. -/
def splitWords (s : String) : List String :=
  (splitWordsL s.data).map (fun l => String.mk l)

/-! ## Trim (String.prototype.trim on the characters occurring here) -/

/-- Drop whitespace from both ends. -/
def trimL (l : List Char) : List Char :=
  ((l.dropWhile isWs).reverse.dropWhile isWs).reverse

/-! ## splitIntoSentences of useTextNavigation.ts -/

/-- Test of /Mr\.|Mrs\.|Dr\.|Ms\.|[A-Z]\.|[0-9]\.$/ : true iff the part
contains one of the title abbreviations, or contains a capital letter
immediately followed by a period, or ends with a digit followed by a
period (only the last alternative is anchored). -/
def isUpperAZ (c : Char) : Bool :=
  'A' ≤ c && c ≤ 'Z'

def isDigit09 (c : Char) : Bool :=
  '0' ≤ c && c ≤ '9'

def hasCapDot : List Char → Bool
  | a :: b :: rest => (isUpperAZ a && b = '.') || hasCapDot (b :: rest)
  | _ => false

def containsSeq (pat l : List Char) : Bool :=
  l.tails.any (fun t => pat.isPrefixOf t)

def endsDigitDot (l : List Char) : Bool :=
  match l.reverse with
  | '.' :: d :: _ => isDigit09 d
  | _ => false

def abbrevTest (l : List Char) : Bool :=
  containsSeq ['M', 'r', '.'] l || containsSeq ['M', 'r', 's', '.'] l ||
  containsSeq ['D', 'r', '.'] l || containsSeq ['M', 's', '.'] l ||
  hasCapDot l || endsDigitDot l

/-- /[.!?]$/.test(part) : the part ends with sentence punctuation. -/
def endsWithPunct (l : List Char) : Bool :=
  match l.getLast? with
  | some c => isPunct c
  | none => false

/-- current + (current ? ' ' : '') + part -/
def joinSp (cur part : List Char) : List Char :=
  if cur.isEmpty then part else cur ++ ' ' :: part

/-- The accumulation loop of splitIntoSentences: walk the raw parts,
flushing the current-sentence buffer on a confirmed boundary, merging
otherwise; at the end flush a non-empty trailing buffer (trimmed, as in
the source). -/
def sentLoop : List (List Char) → List Char → List (List Char)
  | [], cur => if cur.isEmpty then [] else [trimL cur]
  | p :: ps, cur =>
    let part := trimL p
    if part.isEmpty then sentLoop ps cur
    else if endsWithPunct part && !abbrevTest part then
      joinSp cur part :: sentLoop ps []
    else sentLoop ps (joinSp cur part)

/-- splitIntoSentences of useTextNavigation.ts: trim; if empty return [];
split (text + ' ') with the lookbehind regex; run the abbreviation
re-merge loop; finally filter out empty-after-trim results and trim all. -/
def splitIntoSentences (s : String) : List String :=
  let t := trimL s.data
  if t.isEmpty then []
  else
    let parts := sentSplitL (t ++ [' '])
    let raw := sentLoop parts []
    ((raw.filter (fun x => !(trimL x).isEmpty)).map (fun x => trimL x)).map
      (fun l => String.mk l)

example : splitParagraphs "a\n\nb" = ["a", "b"] := by decide
example : splitParagraphs "\na" = ["", "a"] := by decide
example : splitParagraphs "a\n" = ["a", ""] := by decide
example : splitParagraphs "" = [""] := by decide
example : sentSplitStr "A b. C d." = ["A b.", "C d."] := by decide
example : splitWords " a  bc " = ["a", "bc"] := by decide
example : splitIntoSentences "First sentence! Second sentence? Last sentence." =
    ["First sentence!", "Second sentence?", "Last sentence."] := by decide

/-! ## The position triple and the navigation state machine
(useTextNavigation.ts) -/

/-- ReadingPosition of src/types.ts. -/
structure ReadingPosition where
  paragraphIndex : Nat
  sentenceIndex : Nat
  wordIndex : Nat
deriving DecidableEq

/-- The paragraphs local: text.split(/\n+/). -/
def paragraphsOf (text : String) : List String :=
  splitParagraphs text

/-- Sentence list of paragraph k: splitIntoSentences(paragraphs[k] || ""),
the body of getCurrentSentences generalised over the index. -/
def sentencesAt (text : String) (k : Nat) : List String :=
  splitIntoSentences ((paragraphsOf text).getD k "")

/-- Word list of sentence j of paragraph k: getCurrentWords generalised
over the indices.  In the source an undefined sentence yields [] (the
falsy branch of the ternary); a defined sentence s yields
s.match(/\S+/g) || [], which is splitWords s (also [] when s is empty,
matching the other falsy branch). -/
def wordsAt (text : String) (k j : Nat) : List String :=
  match (sentencesAt text k).get? j with
  | some s => splitWords s
  | none => []

/-- getCurrentParagraph: paragraphs[position.paragraphIndex] || ''. -/
def getCurrentParagraph (text : String) (p : ReadingPosition) : String :=
  (paragraphsOf text).getD p.paragraphIndex ""

/-- getCurrentSentences. -/
def getCurrentSentences (text : String) (p : ReadingPosition) : List String :=
  sentencesAt text p.paragraphIndex

/-- getCurrentWords. -/
def getCurrentWords (text : String) (p : ReadingPosition) : List String :=
  wordsAt text p.paragraphIndex p.sentenceIndex

/-- moveToNextWord of useTextNavigation.ts.  The source comparisons
i < xs.length - 1 are embedded as i + 1 < xs.length (equal on the
non-negative integers that occur, including the empty-list case). -/
def moveToNextWord (text : String) (p : ReadingPosition) : ReadingPosition :=
  if p.wordIndex + 1 < (getCurrentWords text p).length then
    ⟨p.paragraphIndex, p.sentenceIndex, p.wordIndex + 1⟩
  else if p.sentenceIndex + 1 < (getCurrentSentences text p).length then
    ⟨p.paragraphIndex, p.sentenceIndex + 1, 0⟩
  else if p.paragraphIndex + 1 < (paragraphsOf text).length then
    ⟨p.paragraphIndex + 1, 0, 0⟩
  else p

/-- moveToPreviousWord of useTextNavigation.ts.  The branches that index
sentences[i-1], paragraphs[i-1] and prevSentences[len-1] dereference the
result without a guard in the source (undefined.match / undefined.trim
would throw a TypeError), so the embedding returns none exactly there. -/
def moveToPreviousWord (text : String) (p : ReadingPosition) :
    Option ReadingPosition :=
  if 0 < p.wordIndex then
    some ⟨p.paragraphIndex, p.sentenceIndex, p.wordIndex - 1⟩
  else if 0 < p.sentenceIndex then
    match (getCurrentSentences text p).get? (p.sentenceIndex - 1) with
    | none => none
    | some prevSentence =>
      some ⟨p.paragraphIndex, p.sentenceIndex - 1, (splitWords prevSentence).length - 1⟩
  else if 0 < p.paragraphIndex then
    match (paragraphsOf text).get? (p.paragraphIndex - 1) with
    | none => none
    | some prevParagraph =>
      match (splitIntoSentences prevParagraph).get?
          ((splitIntoSentences prevParagraph).length - 1) with
      | none => none
      | some lastSentence =>
        some ⟨p.paragraphIndex - 1, (splitIntoSentences prevParagraph).length - 1,
          (splitWords lastSentence).length - 1⟩
  else some p

/-- moveToNextSentence of useTextNavigation.ts: advance inside the
paragraph when possible; otherwise, if a next paragraph exists, move to
it only when it has at least one sentence; otherwise stay put. -/
def moveToNextSentence (text : String) (p : ReadingPosition) : ReadingPosition :=
  let sentences := getCurrentSentences text p
  if p.sentenceIndex + 1 < sentences.length then
    ⟨p.paragraphIndex, p.sentenceIndex + 1, 0⟩
  else if p.paragraphIndex + 1 < (paragraphsOf text).length then
    let nextParagraph := (paragraphsOf text).getD (p.paragraphIndex + 1) ""
    if (splitIntoSentences nextParagraph).length > 0 then
      ⟨p.paragraphIndex + 1, 0, 0⟩
    else p
  else p

/-- The bounds invariant of the spec (section 3): every index strictly
within the count of its scope. -/
def validPos (text : String) (p : ReadingPosition) : Prop :=
  p.paragraphIndex < (paragraphsOf text).length ∧
  p.sentenceIndex < (getCurrentSentences text p).length ∧
  p.wordIndex < (getCurrentWords text p).length

instance (text : String) (p : ReadingPosition) : Decidable (validPos text p) := by
  unfold validPos
  infer_instance

/-- Strict document order on positions: lexicographic on
(paragraph, sentence, word). -/
def posLex (p q : ReadingPosition) : Prop :=
  p.paragraphIndex < q.paragraphIndex ∨
  (p.paragraphIndex = q.paragraphIndex ∧
    (p.sentenceIndex < q.sentenceIndex ∨
      (p.sentenceIndex = q.sentenceIndex ∧ p.wordIndex < q.wordIndex)))

/-- The last word of the last sentence of the last paragraph. -/
def docEnd (text : String) : ReadingPosition :=
  ⟨(paragraphsOf text).length - 1,
   (sentencesAt text ((paragraphsOf text).length - 1)).length - 1,
   (wordsAt text ((paragraphsOf text).length - 1)
     ((sentencesAt text ((paragraphsOf text).length - 1)).length - 1)).length - 1⟩

example : moveToNextWord "A b. C." ⟨0, 0, 0⟩ = ⟨0, 0, 1⟩ := by decide
example : moveToNextWord "A b. C." ⟨0, 0, 1⟩ = ⟨0, 1, 0⟩ := by decide
example : moveToNextWord "A b. C." ⟨0, 1, 0⟩ = ⟨0, 1, 0⟩ := by decide
example : docEnd "A b. C." = ⟨0, 1, 0⟩ := by decide
example : moveToPreviousWord "A b. C." ⟨0, 1, 0⟩ = some ⟨0, 0, 1⟩ := by decide
example : moveToPreviousWord "A b.\nC d." ⟨1, 0, 0⟩ = some ⟨0, 0, 1⟩ := by decide
example : moveToNextSentence "Hi.\n" ⟨0, 0, 0⟩ = ⟨0, 0, 0⟩ := by decide

/-! ## The reducer of src/context/BookReaderContext.tsx -/

/-- BookContent of src/types.ts (optional fields as Option; the format
union and page metadata are kept abstract as strings / lists). -/
structure BookContent where
  text : String
  title : String
  author : Option String
  format : String
deriving DecidableEq

/-- UserPreferences of src/types.ts. -/
structure UserPreferences where
  fontSize : Nat
  fontFamily : String
  lineSpacing : String
  autoScrollSpeed : Nat
  textAlign : String
  theme : String
  paragraphBackground : String
  sentenceHighlight : String
  wordHighlight : String
  pageWidth : Nat
deriving DecidableEq

/-- Partial UserPreferences (the UPDATE_PREFERENCES payload): every field
optional; merging keeps the old value where the patch has none. -/
structure PrefPatch where
  fontSize : Option Nat := none
  fontFamily : Option String := none
  lineSpacing : Option String := none
  autoScrollSpeed : Option Nat := none
  textAlign : Option String := none
  theme : Option String := none
  paragraphBackground : Option String := none
  sentenceHighlight : Option String := none
  wordHighlight : Option String := none
  pageWidth : Option Nat := none
deriving DecidableEq

/-- The object spread of the reducer: new preferences override old ones
field by field where present. -/
def mergePrefs (old : UserPreferences) (patch : PrefPatch) : UserPreferences where
  fontSize := patch.fontSize.getD old.fontSize
  fontFamily := patch.fontFamily.getD old.fontFamily
  lineSpacing := patch.lineSpacing.getD old.lineSpacing
  autoScrollSpeed := patch.autoScrollSpeed.getD old.autoScrollSpeed
  textAlign := patch.textAlign.getD old.textAlign
  theme := patch.theme.getD old.theme
  paragraphBackground := patch.paragraphBackground.getD old.paragraphBackground
  sentenceHighlight := patch.sentenceHighlight.getD old.sentenceHighlight
  wordHighlight := patch.wordHighlight.getD old.wordHighlight
  pageWidth := patch.pageWidth.getD old.pageWidth

/-- The progress record: position, timestamp, bookId. -/
structure ReadingProgress where
  position : ReadingPosition
  timestamp : Nat
  bookId : String
deriving DecidableEq

/-- BookReaderState of src/types.ts. -/
structure BookReaderState where
  content : Option BookContent
  preferences : UserPreferences
  progress : Option ReadingProgress
  isPlaying : Bool
  isSpeaking : Bool
deriving DecidableEq

/-- The Action union of BookReaderContext.tsx. -/
inductive Action : Type
  | setContent (payload : BookContent) : Action
  | updatePreferences (payload : PrefPatch) : Action
  | updatePosition (payload : ReadingPosition) : Action
  | togglePlay : Action
  | toggleSpeak : Action

/-- defaultPreferences of BookReaderContext.tsx. -/
def defaultPreferences : UserPreferences where
  fontSize := 16
  fontFamily := "system-ui"
  lineSpacing := "1.5"
  autoScrollSpeed := 200
  textAlign := "justify"
  theme := "white"
  paragraphBackground := "#f0f0f0"
  sentenceHighlight := "#e6f3ff"
  wordHighlight := "#b3d9ff"
  pageWidth := 75

/-- initialState of BookReaderContext.tsx; now stands for the Date.now()
call evaluated at module load. -/
def initialState (now : Nat) : BookReaderState where
  content := none
  preferences := defaultPreferences
  progress := some ⟨⟨0, 0, 0⟩, now, "current"⟩
  isPlaying := false
  isSpeaking := false

/-- The reducer.  now stands for the Date.now() call in the
UPDATE_POSITION branch (used only when progress is null).  Note that
UPDATE_POSITION stores the payload as given: the spread
position: (old position overridden by the full payload) is the payload
itself, with no bounds check. -/
def reducer (now : Nat) (state : BookReaderState) : Action → BookReaderState
  | Action.setContent payload => { state with content := some payload }
  | Action.updatePreferences payload =>
    { state with preferences := mergePrefs state.preferences payload }
  | Action.updatePosition payload =>
    { state with
      progress :=
        match state.progress with
        | some progress => some { progress with position := payload }
        | none => some ⟨payload, now, "current"⟩ }
  | Action.togglePlay => { state with isPlaying := !state.isPlaying }
  | Action.toggleSpeak => { state with isSpeaking := !state.isSpeaking }

/-- Dispatching a list of actions in order (each with the Date.now()
value observed at that dispatch). -/
def dispatchList (s : BookReaderState) : List (Nat × Action) → BookReaderState
  | [] => s
  | (now, a) :: rest => dispatchList (reducer now s a) rest

/-! ## The speech adapter of src/hooks/useTTS.ts, as an event machine

The playback effect and the generateSpeech callback of the hook are modelled as a
step function over an explicit state.  One synthesis request slot models
abortControllerRef plus the pending fetch (the captured sentence text and
the captured currentPosition prop of the closure); the onended assignment
models audioRef.current.onended together with the values its closure
captured; urlStored models the setAudioUrl(url) call of the resolution
path. -/

/-- getCurrentText of useTTS.ts: raw regex splits, no abbreviation
handling; a missing or empty paragraph or sentence yields ''. -/
def getCurrentText (doc : String) (p : ReadingPosition) : String :=
  let cp := (splitParagraphs doc).getD p.paragraphIndex ""
  if cp = "" then ""
  else (sentSplitStr cp).getD p.sentenceIndex ""

/-- The body of the onended handler installed by the playback effect: it
re-splits the captured text tx (the local const text of
playCurrentSentence, i.e. the sentence string, which shadows the document
prop) and advances the captured position by one sentence or one
paragraph; outside both guards it calls nothing (none). -/
def ttsOnEnded (tx : String) (cpos : ReadingPosition) : Option ReadingPosition :=
  let paragraphs := splitParagraphs tx
  let sentences :=
    match paragraphs.get? cpos.paragraphIndex with
    | some s => sentSplitStr s
    | none => []
  if cpos.sentenceIndex + 1 < sentences.length then
    some ⟨cpos.paragraphIndex, cpos.sentenceIndex + 1, 0⟩
  else if cpos.paragraphIndex + 1 < paragraphs.length then
    some ⟨cpos.paragraphIndex + 1, 0, 0⟩
  else none

/-- An outstanding synthesis request: whether its AbortController was
aborted, the sentence text submitted, and the currentPosition captured by
the effect closure. -/
structure TTSRequest where
  aborted : Bool
  sentText : String
  capturedPos : ReadingPosition
deriving DecidableEq

/-- The observable state of the speech adapter. -/
structure TTSState where
  speaking : Bool
  pos : ReadingPosition
  pending : Option TTSRequest
  onendedHandler : Option (String × ReadingPosition)
  audioPlaying : Bool
  urlStored : Bool
deriving DecidableEq

/-- Events driving the adapter: the effect re-running with the speech
toggle on or off, the fetch of the pending request settling, and the
audio element finishing playback. -/
inductive TTSEvent : Type
  | enable : TTSEvent
  | disable : TTSEvent
  | resolveFetch : TTSEvent
  | audioEnded : TTSEvent

/-- One step of the adapter, read off the playback effect of useTTS.ts:

* enable: playCurrentSentence runs; with empty current text it returns
  before any request; otherwise generateSpeech aborts and supersedes any
  prior request and a fresh non-aborted request capturing the current
  position is outstanding.
* disable: the effect only pauses the audio element; the pending request
  is neither aborted nor cleared, and the installed onended handler
  stays.
* resolveFetch: an aborted request lands in the catch branch (url null,
  nothing further); otherwise the resolution stores the object URL, sets
  the element source, starts playback, and installs the onended closure
  over the captured text and position — without consulting the current
  speaking flag.
* audioEnded: the installed handler runs and publishes the advance
  computed by ttsOnEnded (or leaves the position as is when the handler
  takes neither branch). -/
def ttsStep (doc : String) (s : TTSState) : TTSEvent → TTSState
  | TTSEvent.enable =>
    let s := { s with speaking := true }
    let tx := getCurrentText doc s.pos
    if tx = "" then s
    else { s with pending := some ⟨false, tx, s.pos⟩ }
  | TTSEvent.disable => { s with speaking := false, audioPlaying := false }
  | TTSEvent.resolveFetch =>
    match s.pending with
    | none => s
    | some r =>
      if r.aborted then { s with pending := none }
      else
        { s with
          pending := none
          urlStored := true
          audioPlaying := true
          onendedHandler := some (r.sentText, r.capturedPos) }
  | TTSEvent.audioEnded =>
    if s.audioPlaying then
      match s.onendedHandler with
      | some (tx, cp) =>
        { s with audioPlaying := false, pos := (ttsOnEnded tx cp).getD s.pos }
      | none => { s with audioPlaying := false }
    else s

/-! ## The autoscroll cadence (auto-scroll effect of useTextNavigation.ts) -/

/-- The inter-word delay computed by the effect: 60000 / wordsPerMinute
milliseconds (exact rational division; the JavaScript double division is
exact at the documented settings). -/
def msPerWord (wordsPerMinute : ℚ) : ℚ :=
  60000 / wordsPerMinute

/-- A running interval timer: its tick delay and the instant setInterval
was called. -/
structure IntervalTimer where
  delay : ℚ
  startedAt : ℚ
deriving DecidableEq

/-- setInterval fires at startedAt + k * delay for every k ≥ 1. -/
def fires (t : IntervalTimer) (x : ℚ) : Prop :=
  ∃ k : ℕ, 1 ≤ k ∧ x = t.startedAt + k * t.delay

/-- The effect cleanup plus re-run on a dependency change at instant now:
clearInterval on the old timer, setInterval with the new delay.  The old
timer is gone; only the returned timer fires afterwards. -/
def restartAt (_old : IntervalTimer) (now newDelay : ℚ) : IntervalTimer :=
  ⟨newDelay, now⟩

/-! ## Claim C1 -/

/-- Claim C1 (refuted, code bug): the reducer does not make isPlaying and
isSpeaking mutually exclusive.  From the initial state, dispatching
TOGGLE_PLAY and then TOGGLE_SPEAK reaches a state with both flags true:
each toggle negates its own flag and leaves the other alone, so nothing
suspends the other driver at the toggle level. -/
theorem togglePlay_toggleSpeak_both_true :
    (dispatchList (initialState 0)
      [(0, Action.togglePlay), (0, Action.toggleSpeak)]).isPlaying = true ∧
    (dispatchList (initialState 0)
      [(0, Action.togglePlay), (0, Action.toggleSpeak)]).isSpeaking = true :=
  ⟨rfl, rfl⟩

/-! ## Claim C2 -/

/-- A three-paragraph document, as in the spec example. -/
def threeParaText : String :=
  "First one.\nSecond one.\nThird one."

/-- A reader state holding the three-paragraph document. -/
def threeParaState : BookReaderState :=
  { initialState 0 with content := some ⟨threeParaText, "demo", none, "text"⟩ }

/-- Claim C2 (refuted, code bug): the position update performs no
clamping.  Dispatching UPDATE_POSITION with paragraphIndex 9999 on the
three-paragraph document publishes paragraphIndex 9999 unchanged (the
reducer spreads the payload over the stored position verbatim), so the
published position violates the bounds invariant instead of being clamped
to the last paragraph. -/
theorem updatePosition_stores_out_of_range :
    ((reducer 0 threeParaState (Action.updatePosition ⟨9999, 0, 0⟩)).progress.map
      (fun pr => pr.position)) = some ⟨9999, 0, 0⟩ ∧
    (paragraphsOf threeParaText).length = 3 ∧
    ¬ validPos threeParaText ⟨9999, 0, 0⟩ := by
  refine ⟨rfl, by decide, by decide⟩

/-! ## Claim C6 -/

/-- Claim C6, counterexample: on the example string given by the spec the
sentence splitter does not return the two claimed sentences. -/
theorem splitIntoSentences_abbrev_example_ne_spec :
    splitIntoSentences "Dr. Smith arrived at 9 A.M. He brought Mr. Jones." ≠
      ["Dr. Smith arrived at 9 A.M.", "He brought Mr. Jones."] := by
  decide

/-- Claim C6, amended: the splitter returns the whole input as one merged
sentence.  The abbreviation test fires on the part ending at "A.M."
(its "A." matches the unanchored capital-dot alternative) and on the part
ending at "Mr.", so both candidate boundaries are re-merged into the
growing buffer and only the final "Jones." flushes it. -/
theorem splitIntoSentences_abbrev_example_merges_all :
    splitIntoSentences "Dr. Smith arrived at 9 A.M. He brought Mr. Jones." =
      ["Dr. Smith arrived at 9 A.M. He brought Mr. Jones."] ∧
    abbrevTest ("Smith arrived at 9 A.M.").data = true ∧
    abbrevTest ("He brought Mr.").data = true := by
  refine ⟨by decide, by decide, by decide⟩

/-! ## Claim C7 -/

/-- Claim C7, counterexample: paragraph segmentation keeps empty
paragraphs produced by a leading newline — the first element here is the
empty string, contradicting "every element is non-empty". -/
theorem splitParagraphs_retains_leading_empty :
    splitParagraphs "\nHello." = ["", "Hello."] ∧
    "" ∈ splitParagraphs "\nHello." := by
  refine ⟨by decide, by decide⟩

/-! ## Claim C9 -/

/-- Claim C9, counterexample: the play toggle is not idempotent.
Applying TOGGLE_PLAY twice from the initial state yields isPlaying =
false, while applying it once yields isPlaying = true — two applications
do not agree with one. -/
theorem togglePlay_twice_ne_once :
    (reducer 0 (reducer 0 (initialState 0) Action.togglePlay)
      Action.togglePlay).isPlaying = false ∧
    (reducer 0 (initialState 0) Action.togglePlay).isPlaying = true :=
  ⟨rfl, rfl⟩

/-- Claim C9, amended: TOGGLE_PLAY is an involution, not idempotent: it
always negates isPlaying, so applying it twice restores the whole state
and applying it once flips the flag. -/
theorem togglePlay_involutive (now1 now2 : Nat) (s : BookReaderState) :
    reducer now2 (reducer now1 s Action.togglePlay) Action.togglePlay = s ∧
    (reducer now1 s Action.togglePlay).isPlaying = !s.isPlaying := by
  cases s
  simp [reducer]

/-! ## Claim C10 -/

/-- Claim C10 (confirmed): from the last sentence of a paragraph, when the
immediately following paragraph exists but has zero sentences,
moveToNextSentence leaves the position unchanged — it halts instead of
skipping ahead. -/
theorem moveToNextSentence_halts_at_sentenceless_paragraph
    (text : String) (p : ReadingPosition)
    (h1 : p.sentenceIndex + 1 = (getCurrentSentences text p).length)
    (h2 : p.paragraphIndex + 1 < (paragraphsOf text).length)
    (h3 : splitIntoSentences ((paragraphsOf text).getD (p.paragraphIndex + 1) "") = []) :
    moveToNextSentence text p = p := by
  have g1 : ¬ (p.sentenceIndex + 1 < (getCurrentSentences text p).length) := by omega
  unfold moveToNextSentence
  rw [if_neg g1, if_pos h2]
  simp only [h3]
  simp

/-- Witness for C10: the document "Hi.\n" has the sentence-bearing
paragraph "Hi." followed by the empty paragraph ""; at its last sentence
the move halts. -/
theorem moveToNextSentence_halts_witness :
    (0 : Nat) + 1 = (getCurrentSentences "Hi.\n" ⟨0, 0, 0⟩).length ∧
    (0 : Nat) + 1 < (paragraphsOf "Hi.\n").length ∧
    splitIntoSentences ((paragraphsOf "Hi.\n").getD 1 "") = [] ∧
    moveToNextSentence "Hi.\n" ⟨0, 0, 0⟩ = ⟨0, 0, 0⟩ :=
  ⟨by decide, by decide, by decide,
    moveToNextSentence_halts_at_sentenceless_paragraph "Hi.\n" ⟨0, 0, 0⟩
      (by decide) (by decide) (by decide)⟩

/-! ## Claim C8 -/

/-- Claim C8 (confirmed): the autoscroll delay is 60000 / wordsPerMinute
milliseconds — 500ms at 120wpm and 250ms at 240wpm — and a speed change
while running (effect cleanup clearInterval followed by a fresh
setInterval) restarts the cadence: no tick fires at the transition
instant, the first tick after the change comes a full new delay later,
and subsequent ticks are spaced by exactly the new delay. -/
theorem autoscroll_cadence (wpm : ℚ) (h : 0 < wpm) :
    msPerWord 120 = 500 ∧
    msPerWord 240 = 250 ∧
    (∀ (t : IntervalTimer) (now : ℚ), ¬ fires (restartAt t now (msPerWord wpm)) now) ∧
    (∀ (t : IntervalTimer) (now x : ℚ),
      fires (restartAt t now (msPerWord wpm)) x → now + msPerWord wpm ≤ x) ∧
    (∀ (now : ℚ) (k : ℕ),
      (now + (k + 1 : ℕ) * msPerWord wpm) - (now + (k : ℕ) * msPerWord wpm) =
        msPerWord wpm) := by
  have hd : 0 < msPerWord wpm := by
    have : (0 : ℚ) < 60000 := by norm_num
    exact div_pos this h
  refine ⟨by norm_num [msPerWord], by norm_num [msPerWord], ?_, ?_, ?_⟩
  · intro _t now hf
    obtain ⟨k, hk, hx⟩ := hf
    have hk1 : (1 : ℚ) ≤ (k : ℚ) := by exact_mod_cast hk
    simp only [restartAt] at hx
    nlinarith [mul_le_mul_of_nonneg_right hk1 (le_of_lt hd), hd, hx]
  · intro _t now x hf
    obtain ⟨k, hk, hx⟩ := hf
    have hk1 : (1 : ℚ) ≤ (k : ℚ) := by exact_mod_cast hk
    simp only [restartAt] at hx
    nlinarith [mul_le_mul_of_nonneg_right hk1 (le_of_lt hd), hd, hx]
  · intro now k
    push_cast
    ring

/-- Witness for C8 at 120 words per minute. -/
theorem autoscroll_cadence_witness :
    (0 : ℚ) < 120 ∧ msPerWord 120 = 500 :=
  ⟨by norm_num, (autoscroll_cadence 120 (by norm_num)).1⟩

/-! ## Structural facts about the splitters

The parts produced by the lookbehind sentence split contain no remaining
boundary (no punctuation character immediately followed by whitespace),
and re-splitting such a part yields the part itself.  Likewise paragraph
parts contain no newline.  These facts drive claim C3: the onended
handler of useTTS.ts re-splits a single already-split sentence, so its
advance guards can never hold. -/

/-- No sentence boundary inside the list: no punctuation character
immediately followed by a whitespace character. -/
def noBoundary : List Char → Bool
  | c :: d :: rest => !(isPunct c && isWs d) && noBoundary (d :: rest)
  | _ => true

theorem noBoundary_cons (c d : Char) (rest : List Char) :
    noBoundary (c :: d :: rest) = (!(isPunct c && isWs d) && noBoundary (d :: rest)) :=
  rfl

theorem bnot_eq_true {a : Bool} (h : (!a) = true) : a = false := by
  cases a
  · rfl
  · exact absurd h (by decide)

theorem noBoundary_tail (a : Char) (L : List Char)
    (h : noBoundary (a :: L) = true) : noBoundary L = true := by
  cases L with
  | nil => rfl
  | cons b rest =>
    rw [noBoundary_cons, Bool.and_eq_true] at h
    exact h.2

theorem noBoundary_pair : ∀ (xs : List Char) (c d : Char) (ys : List Char),
    noBoundary (xs ++ c :: d :: ys) = true → (isPunct c && isWs d) = false
  | [], c, d, ys, h => by
    rw [List.nil_append, noBoundary_cons, Bool.and_eq_true] at h
    exact bnot_eq_true h.1
  | a :: xs, c, d, ys, h => by
    rw [List.cons_append] at h
    exact noBoundary_pair xs c d ys (noBoundary_tail _ _ h)

theorem noBoundary_snoc : ∀ (ys : List Char) (d : Char),
    noBoundary ys = true →
    (∀ c, ys.getLast? = some c → (isPunct c && isWs d) = false) →
    noBoundary (ys ++ [d]) = true
  | [], _, _, _ => rfl
  | [a], d, _, h2 => by
    have h := h2 a rfl
    simp [noBoundary, h]
  | a :: b :: rest, d, h1, h2 => by
    rw [noBoundary_cons, Bool.and_eq_true] at h1
    have tail := noBoundary_snoc (b :: rest) d h1.2
      (fun c hc => h2 c (by rw [List.getLast?_cons_cons]; exact hc))
    simp only [List.cons_append] at tail ⊢
    rw [noBoundary_cons, Bool.and_eq_true]
    exact ⟨h1.1, tail⟩

theorem noBoundary_append_head : ∀ (xs : List Char) (prev c : Char) (ys : List Char),
    noBoundary (xs ++ c :: ys) = true → xs.getLast? = some prev →
    (isPunct prev && isWs c) = false
  | [], prev, c, ys, _, hl => by simp at hl
  | [a], prev, c, ys, h, hl => by
    have ha : a = prev := by simpa using hl
    subst ha
    rw [List.cons_append, List.nil_append, noBoundary_cons, Bool.and_eq_true] at h
    exact bnot_eq_true h.1
  | a :: b :: rest, prev, c, ys, h, hl => by
    rw [List.getLast?_cons_cons] at hl
    rw [List.cons_append] at h
    exact noBoundary_append_head (b :: rest) prev c ys (noBoundary_tail _ _ h) hl

/-- The characters already accumulated in a scanner mode. -/
def modeChars : SentMode → List Char
  | SentMode.build _ acc => acc
  | SentMode.sep => []

/-- The scanner invariant: in build mode the accumulated part (reversed)
has no internal boundary and ends with the remembered previous
character. -/
def modeInv : SentMode → Prop
  | SentMode.build prev acc => noBoundary acc.reverse = true ∧ acc.head? = some prev
  | SentMode.sep => True

theorem sentGo_parts_noBoundary : ∀ (l : List Char) (m : SentMode),
    modeInv m → ∀ P ∈ sentGo m l, noBoundary P = true
  | [], SentMode.build _ acc, hm, P, hP => by
    simp only [sentGo, List.mem_singleton] at hP
    subst hP
    exact hm.1
  | [], SentMode.sep, _, P, hP => by
    simp only [sentGo, List.mem_singleton] at hP
    subst hP
    rfl
  | c :: rest, SentMode.build prev acc, hm, P, hP => by
    simp only [sentGo] at hP
    by_cases hb : (isPunct prev && isWs c) = true
    · rw [if_pos hb] at hP
      rcases List.mem_cons.mp hP with h | h
      · subst h
        exact hm.1
      · exact sentGo_parts_noBoundary rest SentMode.sep trivial P h
    · rw [if_neg hb] at hP
      have hinv : modeInv (SentMode.build c (c :: acc)) := by
        refine ⟨?_, rfl⟩
        rw [List.reverse_cons]
        refine noBoundary_snoc acc.reverse c hm.1 ?_
        intro x hx
        rw [List.getLast?_reverse, hm.2] at hx
        cases hx
        exact Bool.eq_false_iff.mpr hb
      exact sentGo_parts_noBoundary rest _ hinv P hP
  | c :: rest, SentMode.sep, _, P, hP => by
    simp only [sentGo] at hP
    by_cases hw : isWs c = true
    · rw [if_pos hw] at hP
      exact sentGo_parts_noBoundary rest SentMode.sep trivial P hP
    · rw [if_neg hw] at hP
      exact sentGo_parts_noBoundary rest (SentMode.build c [c]) ⟨rfl, rfl⟩ P hP

theorem sentGo_of_noBoundary : ∀ (l : List Char) (prev : Char) (acc : List Char),
    noBoundary (acc.reverse ++ l) = true → acc.head? = some prev →
    sentGo (SentMode.build prev acc) l = [acc.reverse ++ l]
  | [], _, acc, _, _ => by simp [sentGo]
  | c :: rest, prev, acc, h, hh => by
    have hb : (isPunct prev && isWs c) = false :=
      noBoundary_append_head acc.reverse prev c rest h
        (by rw [List.getLast?_reverse]; exact hh)
    simp only [sentGo, hb, Bool.false_eq_true, if_false]
    have hrec := sentGo_of_noBoundary rest c (c :: acc)
      (by simpa [List.reverse_cons, List.append_assoc] using h) rfl
    rw [hrec]
    simp [List.reverse_cons, List.append_assoc]

theorem sentSplitL_parts_noBoundary (l : List Char) (P : List Char)
    (hP : P ∈ sentSplitL l) : noBoundary P = true := by
  cases l with
  | nil =>
    simp only [sentSplitL, List.mem_singleton] at hP
    subst hP
    rfl
  | cons c rest =>
    simp only [sentSplitL] at hP
    exact sentGo_parts_noBoundary rest (SentMode.build c [c]) ⟨rfl, rfl⟩ P hP

theorem sentSplitL_of_noBoundary (l : List Char) (hne : l ≠ [])
    (h : noBoundary l = true) : sentSplitL l = [l] := by
  cases l with
  | nil => exact absurd rfl hne
  | cons c rest =>
    simp only [sentSplitL]
    have hrec := sentGo_of_noBoundary rest c [c] (by simpa using h) rfl
    simpa using hrec

theorem sentGo_chars : ∀ (l : List Char) (m : SentMode) (P : List Char),
    P ∈ sentGo m l → ∀ a ∈ P, a ∈ modeChars m ∨ a ∈ l
  | [], SentMode.build _ acc, P, hP, a, ha => by
    simp only [sentGo, List.mem_singleton] at hP
    subst hP
    exact Or.inl (List.mem_reverse.mp ha)
  | [], SentMode.sep, P, hP, a, ha => by
    simp only [sentGo, List.mem_singleton] at hP
    subst hP
    simp at ha
  | c :: rest, SentMode.build prev acc, P, hP, a, ha => by
    simp only [sentGo] at hP
    by_cases hb : (isPunct prev && isWs c) = true
    · rw [if_pos hb] at hP
      rcases List.mem_cons.mp hP with h | h
      · subst h
        exact Or.inl (List.mem_reverse.mp ha)
      · rcases sentGo_chars rest SentMode.sep P h a ha with h2 | h2
        · simp [modeChars] at h2
        · exact Or.inr (List.mem_cons_of_mem c h2)
    · rw [if_neg hb] at hP
      rcases sentGo_chars rest (SentMode.build c (c :: acc)) P hP a ha with h2 | h2
      · rcases List.mem_cons.mp h2 with h3 | h3
        · subst h3
          exact Or.inr (List.mem_cons_self _ _)
        · exact Or.inl h3
      · exact Or.inr (List.mem_cons_of_mem c h2)
  | c :: rest, SentMode.sep, P, hP, a, ha => by
    simp only [sentGo] at hP
    by_cases hw : isWs c = true
    · rw [if_pos hw] at hP
      rcases sentGo_chars rest SentMode.sep P hP a ha with h2 | h2
      · simp [modeChars] at h2
      · exact Or.inr (List.mem_cons_of_mem c h2)
    · rw [if_neg hw] at hP
      rcases sentGo_chars rest (SentMode.build c [c]) P hP a ha with h2 | h2
      · rcases List.mem_cons.mp h2 with h3 | h3
        · subst h3
          exact Or.inr (List.mem_cons_self _ _)
        · simp at h3
      · exact Or.inr (List.mem_cons_of_mem c h2)

theorem sentSplitL_chars (l : List Char) (P : List Char) (hP : P ∈ sentSplitL l) :
    ∀ a ∈ P, a ∈ l := by
  cases l with
  | nil =>
    simp only [sentSplitL, List.mem_singleton] at hP
    subst hP
    intro a ha
    simp at ha
  | cons c rest =>
    simp only [sentSplitL] at hP
    intro a ha
    rcases sentGo_chars rest (SentMode.build c [c]) P hP a ha with h | h
    · rcases List.mem_cons.mp h with h2 | h2
      · subst h2
        exact List.mem_cons_self _ _
      · simp at h2
    · exact List.mem_cons_of_mem c h

theorem paraGo_ne_nil : ∀ (l : List Char) (sep : Bool) (acc : List Char),
    paraGo sep acc l ≠ []
  | [], _, acc => by simp [paraGo]
  | c :: rest, sep, acc => by
    simp only [paraGo]
    by_cases hc : c = '\n'
    · rw [if_pos hc]
      cases sep
      · simp
      · exact paraGo_ne_nil rest true []
    · rw [if_neg hc]
      exact paraGo_ne_nil rest false (c :: acc)

theorem paraGo_parts_no_newline : ∀ (l : List Char) (sep : Bool) (acc : List Char),
    (∀ a ∈ acc, a ≠ '\n') → ∀ P ∈ paraGo sep acc l, ∀ a ∈ P, a ≠ '\n'
  | [], _, acc, hacc, P, hP, a, ha => by
    simp only [paraGo, List.mem_singleton] at hP
    subst hP
    exact hacc a (List.mem_reverse.mp ha)
  | c :: rest, sep, acc, hacc, P, hP, a, ha => by
    simp only [paraGo] at hP
    by_cases hc : c = '\n'
    · rw [if_pos hc] at hP
      cases sep with
      | true => exact paraGo_parts_no_newline rest true [] (by simp) P hP a ha
      | false =>
        rcases List.mem_cons.mp hP with h | h
        · subst h
          exact hacc a (List.mem_reverse.mp ha)
        · exact paraGo_parts_no_newline rest true [] (by simp) P h a ha
    · rw [if_neg hc] at hP
      refine paraGo_parts_no_newline rest false (c :: acc) ?_ P hP a ha
      intro x hx
      rcases List.mem_cons.mp hx with h2 | h2
      · subst h2
        exact hc
      · exact hacc x h2

theorem paraGo_of_no_newline : ∀ (l : List Char) (acc : List Char),
    (∀ a ∈ l, a ≠ '\n') → paraGo false acc l = [acc.reverse ++ l]
  | [], acc, _ => by simp [paraGo]
  | c :: rest, acc, h => by
    have hc : c ≠ '\n' := h c (List.mem_cons_self _ _)
    simp only [paraGo, if_neg hc]
    have hrec := paraGo_of_no_newline rest (c :: acc)
      (fun a ha => h a (List.mem_cons_of_mem c ha))
    rw [hrec]
    simp [List.reverse_cons, List.append_assoc]

/-! ## Lifting the splitter facts to strings -/

theorem string_mk_data (s : String) : String.mk s.data = s :=
  rfl

theorem data_ne_nil_of_ne_empty {s : String} (h : s ≠ "") : s.data ≠ [] := by
  intro hd
  apply h
  cases s with
  | mk data =>
    cases hd
    rfl

theorem get?_of_getD_ne {α : Type} : ∀ (l : List α) (i : Nat) (d : α),
    l.getD i d ≠ d → l.get? i = some (l.getD i d)
  | [], i, d, h => by simp [List.getD] at h
  | a :: l, 0, d, _ => by simp [List.getD_cons_zero]
  | a :: l, i + 1, d, h => by
    rw [List.getD_cons_succ] at h
    rw [List.getD_cons_succ]
    simpa using get?_of_getD_ne l i d h

theorem splitParagraphs_no_newline (doc : String) (para : String)
    (h : para ∈ splitParagraphs doc) : ∀ a ∈ para.data, a ≠ '\n' := by
  rcases List.mem_map.mp h with ⟨P, hP, rfl⟩
  intro a ha
  exact paraGo_parts_no_newline doc.data false [] (by simp) P hP a ha

theorem sentSplitStr_part_props (cp s : String) (h : s ∈ sentSplitStr cp) :
    noBoundary s.data = true ∧ ∀ a ∈ s.data, a ∈ cp.data := by
  rcases List.mem_map.mp h with ⟨P, hP, rfl⟩
  exact ⟨sentSplitL_parts_noBoundary cp.data P hP, sentSplitL_chars cp.data P hP⟩

theorem splitParagraphs_eq_self (s : String) (h : ∀ a ∈ s.data, a ≠ '\n') :
    splitParagraphs s = [s] := by
  unfold splitParagraphs splitParagraphsL
  rw [paraGo_of_no_newline s.data [] h]
  simp [string_mk_data]

theorem sentSplitStr_eq_self (s : String) (hne : s ≠ "") (h : noBoundary s.data = true) :
    sentSplitStr s = [s] := by
  unfold sentSplitStr
  rw [sentSplitL_of_noBoundary s.data (data_ne_nil_of_ne_empty hne) h]
  simp [string_mk_data]

/-- The onended handler never advances the position when handed a text
that is itself one raw-split sentence of a newline-free paragraph: the
re-split of that text is a singleton, so both advance guards fail. -/
theorem ttsOnEnded_none_of_parts (cp tx : String) (q : ReadingPosition)
    (hcp_nl : ∀ a ∈ cp.data, a ≠ '\n')
    (htx_mem : tx ∈ sentSplitStr cp)
    (hne : tx ≠ "") :
    ttsOnEnded tx q = none := by
  obtain ⟨hnoB, hsub⟩ := sentSplitStr_part_props cp tx htx_mem
  have hnl : ∀ a ∈ tx.data, a ≠ '\n' := fun a ha => hcp_nl a (hsub a ha)
  have hp1 : splitParagraphs tx = [tx] := splitParagraphs_eq_self tx hnl
  have hs1 : sentSplitStr tx = [tx] := sentSplitStr_eq_self tx hne hnoB
  unfold ttsOnEnded
  rw [hp1]
  cases hq : q.paragraphIndex with
  | zero =>
    simp only [List.get?_cons_zero, hs1, List.length_singleton]
    rw [if_neg (by omega), if_neg (by omega)]
  | succ n =>
    simp only [List.get?_cons_succ, List.get?_nil, List.length_nil, List.length_singleton]
    rw [if_neg (by omega), if_neg (by omega)]

/-- Any non-empty text produced by getCurrentText is such a sentence, so
the handler it was captured with never moves the position, whatever
position it captured. -/
theorem ttsOnEnded_of_getCurrentText (doc : String) (p q : ReadingPosition)
    (h : getCurrentText doc p ≠ "") :
    ttsOnEnded (getCurrentText doc p) q = none := by
  unfold getCurrentText at h ⊢
  by_cases hcpe : (splitParagraphs doc).getD p.paragraphIndex "" = ""
  · rw [if_pos hcpe] at h
    exact absurd rfl h
  · rw [if_neg hcpe] at h ⊢
    refine ttsOnEnded_none_of_parts ((splitParagraphs doc).getD p.paragraphIndex "")
      _ q ?_ ?_ h
    · exact splitParagraphs_no_newline doc _
        (List.get?_mem (get?_of_getD_ne _ _ _ hcpe))
    · exact List.get?_mem (get?_of_getD_ne _ _ _ h)

/-! ## Claim C3 -/

/-- A demonstration document for the speech adapter. -/
def ttsDemoDoc : String :=
  "A b. C d."

/-- The adapter state right after enabling speech at the document start:
a non-aborted request for the first sentence is outstanding. -/
def ttsDemoStart : TTSState where
  speaking := true
  pos := ⟨0, 0, 0⟩
  pending := some ⟨false, getCurrentText ttsDemoDoc ⟨0, 0, 0⟩, ⟨0, 0, 0⟩⟩
  onendedHandler := none
  audioPlaying := false
  urlStored := false

/-- Claim C3, counterexample: a request outstanding when speech is
disabled is neither detected nor discarded when it resolves.  Disabling
leaves the request pending and un-aborted, and its later resolution is
processed in full: the object URL is stored and audio playback starts
even though speaking is already false. -/
theorem disable_does_not_discard_resolution :
    ((ttsStep ttsDemoDoc ttsDemoStart TTSEvent.disable).speaking = false) ∧
    ((ttsStep ttsDemoDoc ttsDemoStart TTSEvent.disable).pending =
      some ⟨false, "A b.", ⟨0, 0, 0⟩⟩) ∧
    ((ttsStep ttsDemoDoc (ttsStep ttsDemoDoc ttsDemoStart TTSEvent.disable)
        TTSEvent.resolveFetch).urlStored = true) ∧
    ((ttsStep ttsDemoDoc (ttsStep ttsDemoDoc ttsDemoStart TTSEvent.disable)
        TTSEvent.resolveFetch).audioPlaying = true) ∧
    ((ttsStep ttsDemoDoc (ttsStep ttsDemoDoc ttsDemoStart TTSEvent.disable)
        TTSEvent.resolveFetch).speaking = false) := by
  refine ⟨rfl, by decide, by decide, by decide, by decide⟩

/-- Claim C3, amended: disabling speech while a request is outstanding
does not cancel it — its resolution is still processed (see the
counterexample) — but the Position is nevertheless unchanged by the
resolution and by the subsequent playback completion, because the
completion handler re-derives segmentation from the captured
single-sentence text, whose re-split is a singleton, so neither advance
guard can fire. -/
theorem position_unchanged_after_disable_resolve (doc : String) (s : TTSState)
    (cp : ReadingPosition)
    (hp : s.pending = some ⟨false, getCurrentText doc cp, cp⟩)
    (hne : getCurrentText doc cp ≠ "") :
    ((ttsStep doc s TTSEvent.disable).pos = s.pos) ∧
    ((ttsStep doc (ttsStep doc s TTSEvent.disable) TTSEvent.resolveFetch).pos = s.pos) ∧
    ((ttsStep doc (ttsStep doc (ttsStep doc s TTSEvent.disable) TTSEvent.resolveFetch)
        TTSEvent.audioEnded).pos = s.pos) := by
  have hend : ttsOnEnded (getCurrentText doc cp) cp = none :=
    ttsOnEnded_of_getCurrentText doc cp cp hne
  refine ⟨rfl, ?_, ?_⟩
  · simp [ttsStep, hp]
  · simp [ttsStep, hp, hend]

/-- Witness for C3 (amended): the demonstration state satisfies the
hypotheses and keeps its position through disable, resolve, and playback
completion. -/
theorem position_unchanged_after_disable_resolve_witness :
    ttsDemoStart.pending = some ⟨false, getCurrentText ttsDemoDoc ⟨0, 0, 0⟩, ⟨0, 0, 0⟩⟩ ∧
    getCurrentText ttsDemoDoc ⟨0, 0, 0⟩ ≠ "" ∧
    (((ttsStep ttsDemoDoc ttsDemoStart TTSEvent.disable).pos = ttsDemoStart.pos) ∧
     ((ttsStep ttsDemoDoc (ttsStep ttsDemoDoc ttsDemoStart TTSEvent.disable)
         TTSEvent.resolveFetch).pos = ttsDemoStart.pos) ∧
     ((ttsStep ttsDemoDoc (ttsStep ttsDemoDoc (ttsStep ttsDemoDoc ttsDemoStart
         TTSEvent.disable) TTSEvent.resolveFetch) TTSEvent.audioEnded).pos =
       ttsDemoStart.pos)) :=
  ⟨rfl, by decide,
    position_unchanged_after_disable_resolve ttsDemoDoc ttsDemoStart ⟨0, 0, 0⟩ rfl
      (by decide)⟩

/-! ## Interior parts of the paragraph split are non-empty (claim C7) -/

theorem paraGo_build_head_ne : ∀ (l : List Char) (acc : List Char),
    acc ≠ [] → (paraGo false acc l).head? ≠ some []
  | [], acc, hacc => by
    simp only [paraGo, List.head?_cons, ne_eq, Option.some.injEq,
      List.reverse_eq_nil_iff]
    exact hacc
  | c :: rest, acc, hacc => by
    simp only [paraGo]
    by_cases hc : c = '\n'
    · rw [if_pos hc]
      simp only [Bool.false_eq_true, if_false, List.head?_cons, ne_eq,
        Option.some.injEq, List.reverse_eq_nil_iff]
      exact hacc
    · rw [if_neg hc]
      exact paraGo_build_head_ne rest (c :: acc) (by simp)

theorem paraGo_sep_head_ne : ∀ (l : List Char),
    2 ≤ (paraGo true [] l).length → (paraGo true [] l).head? ≠ some []
  | [], h => by simp [paraGo] at h
  | c :: rest, h => by
    simp only [paraGo] at h ⊢
    by_cases hc : c = '\n'
    · rw [if_pos hc] at h ⊢
      simp only [if_true] at h ⊢
      exact paraGo_sep_head_ne rest h
    · rw [if_neg hc] at h ⊢
      exact paraGo_build_head_ne rest [c] (by simp)

theorem get?_zero_eq_head {α : Type} (l : List α) : l.get? 0 = l.head? := by
  cases l <;> rfl

theorem paraGo_interior_ne : ∀ (l : List Char) (sep : Bool) (acc : List Char) (i : Nat),
    0 < i → i + 1 < (paraGo sep acc l).length → (paraGo sep acc l).get? i ≠ some []
  | [], _, acc, i, _, h2 => by
    simp only [paraGo, List.length_singleton] at h2
    omega
  | c :: rest, sep, acc, i, h1, h2 => by
    simp only [paraGo] at h2 ⊢
    by_cases hc : c = '\n'
    · rw [if_pos hc] at h2 ⊢
      cases sep with
      | true =>
        simp only [if_true] at h2 ⊢
        exact paraGo_interior_ne rest true [] i h1 h2
      | false =>
        simp only [Bool.false_eq_true, if_false] at h2 ⊢
        rw [List.length_cons] at h2
        rcases Nat.lt_or_ge 1 i with hgt | hle
        · have hi : i - 1 + 1 = i := by omega
          rw [← hi, List.get?_cons_succ]
          exact paraGo_interior_ne rest true [] (i - 1) (by omega) (by omega)
        · have hi1 : i = 1 := by omega
          subst hi1
          rw [List.get?_cons_succ, get?_zero_eq_head]
          exact paraGo_sep_head_ne rest (by omega)
    · rw [if_neg hc] at h2 ⊢
      exact paraGo_interior_ne rest false (c :: acc) i h1 h2

theorem splitParagraphs_interior_ne (s : String) (i : Nat)
    (h1 : 0 < i) (h2 : i + 1 < (splitParagraphs s).length) :
    (splitParagraphs s).get? i ≠ some "" := by
  unfold splitParagraphs at h2 ⊢
  rw [List.length_map] at h2
  intro hc
  rw [List.get?_map] at hc
  cases hg : (splitParagraphsL s.data).get? i with
  | none => rw [hg] at hc; simp at hc
  | some P =>
    rw [hg] at hc
    have hmk : String.mk P = "" := by simpa using hc
    have hPe : P = [] := congrArg String.data hmk
    have hP : (splitParagraphsL s.data).get? i = some [] := by rw [hg, hPe]
    exact paraGo_interior_ne s.data false [] i h1 h2 hP

/-- Claim C7, amended: the paragraph split separates on runs of one or
more newlines, and while leading or trailing newline runs do produce
empty paragraphs that are retained (see the counterexample), every
interior element of the result is non-empty; a text with a leading
newline always starts with a retained empty paragraph. -/
theorem splitParagraphs_interior_nonempty (s : String) (i : Nat)
    (h1 : 0 < i) (h2 : i + 1 < (splitParagraphs s).length) :
    (splitParagraphs s).get? i ≠ some "" ∧
    (splitParagraphs ("\n" ++ s)).head? = some "" := by
  refine ⟨splitParagraphs_interior_ne s i h1 h2, ?_⟩
  have hdata : ("\n" ++ s).data = '\n' :: s.data := by
    rw [String.data_append]
    rfl
  unfold splitParagraphs splitParagraphsL
  rw [hdata]
  simp [paraGo]

/-- Witness for C7 (amended) on a three-paragraph text. -/
theorem splitParagraphs_interior_nonempty_witness :
    0 < 1 ∧ 1 + 1 < (splitParagraphs "a\nb\nc").length ∧
    ((splitParagraphs "a\nb\nc").get? 1 ≠ some "" ∧
     (splitParagraphs ("\n" ++ "a\nb\nc")).head? = some "") :=
  ⟨by decide, by decide,
    splitParagraphs_interior_nonempty "a\nb\nc" 1 (by decide) (by decide)⟩

/-! ## Every produced sentence has at least one word -/

theorem dropWhile_head_false {α : Type} (p : α → Bool) :
    ∀ (l : List α) (c : α) (rest : List α), l.dropWhile p = c :: rest → p c = false
  | [], c, rest, h => by simp [List.dropWhile] at h
  | a :: l, c, rest, h => by
    rw [List.dropWhile_cons] at h
    by_cases hp : p a = true
    · rw [if_pos hp] at h
      exact dropWhile_head_false p l c rest h
    · rw [if_neg hp] at h
      injection h with h1 _
      subst h1
      exact Bool.eq_false_iff.mpr hp

theorem trimL_has_solid (l : List Char) (h : trimL l ≠ []) :
    ∃ c ∈ trimL l, isWs c = false := by
  unfold trimL at h ⊢
  cases hd : (l.dropWhile isWs).reverse.dropWhile isWs with
  | nil => rw [hd] at h; simp at h
  | cons c rest =>
    refine ⟨c, ?_, dropWhile_head_false isWs _ c rest hd⟩
    simp

theorem wordsGo_ne_nil : ∀ (l : List Char) (acc : List Char),
    (acc ≠ [] ∨ ∃ c ∈ l, isWs c = false) → wordsGo acc l ≠ []
  | [], acc, h => by
    rcases h with h | ⟨c, hc, _⟩
    · simp only [wordsGo]
      rw [if_neg (by simpa [List.isEmpty_iff] using h)]
      simp
    · simp at hc
  | c :: rest, acc, h => by
    simp only [wordsGo]
    by_cases hw : isWs c = true
    · rw [if_pos hw]
      by_cases ha : acc.isEmpty = true
      · rw [if_pos ha]
        refine wordsGo_ne_nil rest [] (Or.inr ?_)
        rcases h with h | ⟨d, hd, hdw⟩
        · exact absurd (List.isEmpty_iff.mp ha) h
        · rcases List.mem_cons.mp hd with h2 | h2
          · subst h2
            rw [hw] at hdw
            exact absurd hdw (by decide)
          · exact ⟨d, h2, hdw⟩
      · rw [if_neg ha]
        simp
    · rw [if_neg hw]
      exact wordsGo_ne_nil rest (c :: acc) (Or.inl (by simp))

theorem splitIntoSentences_words_ne (para s : String)
    (h : s ∈ splitIntoSentences para) : splitWords s ≠ [] := by
  simp only [splitIntoSentences] at h
  by_cases ht : (trimL para.data).isEmpty = true
  · rw [if_pos ht] at h
    simp at h
  · rw [if_neg ht] at h
    rcases List.mem_map.mp h with ⟨L, hL, rfl⟩
    rcases List.mem_map.mp hL with ⟨x, hx, rfl⟩
    have hfil := (List.mem_filter.mp hx).2
    have hne : trimL x ≠ [] := by
      intro hh
      rw [hh] at hfil
      simp at hfil
    obtain ⟨c, hc, hcw⟩ := trimL_has_solid x hne
    unfold splitWords splitWordsL
    intro hcontra
    have hnil : wordsGo [] (String.mk (trimL x)).data = [] :=
      List.map_eq_nil_iff.mp hcontra
    exact wordsGo_ne_nil (trimL x) [] (Or.inr ⟨c, hc, hcw⟩) hnil

theorem getD_eq_get?_getD {α : Type} : ∀ (l : List α) (i : Nat) (d : α),
    l.getD i d = (l.get? i).getD d
  | [], i, d => by simp [List.getD]
  | a :: l, 0, d => by simp [List.getD_cons_zero]
  | a :: l, i + 1, d => by
    rw [List.getD_cons_succ, List.get?_cons_succ]
    exact getD_eq_get?_getD l i d

theorem wordsAt_pos (text : String) (k j : Nat)
    (hj : j < (sentencesAt text k).length) : 0 < (wordsAt text k j).length := by
  unfold wordsAt
  cases hg : (sentencesAt text k).get? j with
  | none =>
    have := List.get?_eq_none.mp hg
    omega
  | some s =>
    have hmem : s ∈ sentencesAt text k := List.get?_mem hg
    have hne := splitIntoSentences_words_ne ((paragraphsOf text).getD k "") s hmem
    exact List.length_pos.mpr hne

theorem wordsAt_nil_of_no_sentences (text : String) (k j : Nat)
    (hs : sentencesAt text k = []) : wordsAt text k j = [] := by
  unfold wordsAt
  rw [hs]
  cases j <;> rfl

/-! ## The reach invariant and the rank function for claim C4 -/

/-- Paragraph-count is at least one: the JavaScript split always returns
at least one part. -/
theorem paragraphsOf_pos (text : String) : 0 < (paragraphsOf text).length := by
  unfold paragraphsOf splitParagraphs splitParagraphsL
  rw [List.length_map]
  cases hg : paraGo false [] text.data with
  | nil => exact absurd hg (paraGo_ne_nil _ _ _)
  | cons a l => simp

/-- The states dominated by repeated moveToNextWord from the origin:
paragraph index in range, and either a sentence-less (empty) paragraph
entered at its origin, or sentence and word index strictly in range. -/
def reachInv (text : String) (p : ReadingPosition) : Prop :=
  p.paragraphIndex < (paragraphsOf text).length ∧
  ((sentencesAt text p.paragraphIndex = [] ∧ p.sentenceIndex = 0 ∧ p.wordIndex = 0) ∨
   (p.sentenceIndex < (sentencesAt text p.paragraphIndex).length ∧
    p.wordIndex < (wordsAt text p.paragraphIndex p.sentenceIndex).length))

theorem reachInv_init (text : String) : reachInv text ⟨0, 0, 0⟩ := by
  refine ⟨paragraphsOf_pos text, ?_⟩
  dsimp
  cases hs : sentencesAt text 0 with
  | nil => exact Or.inl ⟨rfl, rfl, rfl⟩
  | cons s rest =>
    refine Or.inr ⟨by simp, ?_⟩
    exact wordsAt_pos text 0 0 (by rw [hs]; simp)

/-- Exhaustive description of one moveToNextWord step. -/
theorem moveToNextWord_cases (text : String) (p : ReadingPosition) :
    (p.wordIndex + 1 < (getCurrentWords text p).length ∧
      moveToNextWord text p = ⟨p.paragraphIndex, p.sentenceIndex, p.wordIndex + 1⟩) ∨
    (¬ p.wordIndex + 1 < (getCurrentWords text p).length ∧
      p.sentenceIndex + 1 < (getCurrentSentences text p).length ∧
      moveToNextWord text p = ⟨p.paragraphIndex, p.sentenceIndex + 1, 0⟩) ∨
    (¬ p.wordIndex + 1 < (getCurrentWords text p).length ∧
      ¬ p.sentenceIndex + 1 < (getCurrentSentences text p).length ∧
      p.paragraphIndex + 1 < (paragraphsOf text).length ∧
      moveToNextWord text p = ⟨p.paragraphIndex + 1, 0, 0⟩) ∨
    (¬ p.wordIndex + 1 < (getCurrentWords text p).length ∧
      ¬ p.sentenceIndex + 1 < (getCurrentSentences text p).length ∧
      ¬ p.paragraphIndex + 1 < (paragraphsOf text).length ∧
      moveToNextWord text p = p) := by
  unfold moveToNextWord
  by_cases h1 : p.wordIndex + 1 < (getCurrentWords text p).length
  · exact Or.inl ⟨h1, by rw [if_pos h1]⟩
  · rw [if_neg h1]
    by_cases h2 : p.sentenceIndex + 1 < (getCurrentSentences text p).length
    · exact Or.inr (Or.inl ⟨h1, h2, by rw [if_pos h2]⟩)
    · rw [if_neg h2]
      by_cases h3 : p.paragraphIndex + 1 < (paragraphsOf text).length
      · exact Or.inr (Or.inr (Or.inl ⟨h1, h2, h3, by rw [if_pos h3]⟩))
      · exact Or.inr (Or.inr (Or.inr ⟨h1, h2, h3, by rw [if_neg h3]⟩))

theorem moveToNextWord_mono (text : String) (p : ReadingPosition) :
    moveToNextWord text p = p ∨ posLex p (moveToNextWord text p) := by
  rcases moveToNextWord_cases text p with ⟨_, he⟩ | ⟨_, _, he⟩ | ⟨_, _, _, he⟩ | ⟨_, _, _, he⟩
  · refine Or.inr ?_
    rw [he]
    unfold posLex
    dsimp
    omega
  · refine Or.inr ?_
    rw [he]
    unfold posLex
    dsimp
    omega
  · refine Or.inr ?_
    rw [he]
    unfold posLex
    dsimp
    omega
  · exact Or.inl he

theorem reachInv_step (text : String) (p : ReadingPosition) (h : reachInv text p) :
    reachInv text (moveToNextWord text p) := by
  obtain ⟨hpara, hrest⟩ := h
  rcases moveToNextWord_cases text p with ⟨h1, he⟩ | ⟨h1, h2, he⟩ | ⟨h1, h2, h3, he⟩ | ⟨_, _, _, he⟩
  · rw [he]
    unfold getCurrentWords at h1
    unfold reachInv
    dsimp
    refine ⟨hpara, Or.inr ⟨?_, h1⟩⟩
    rcases hrest with ⟨hs, _, _⟩ | ⟨hs, _⟩
    · rw [wordsAt_nil_of_no_sentences text _ _ hs] at h1
      simp at h1
    · exact hs
  · rw [he]
    unfold getCurrentSentences at h2
    unfold reachInv
    dsimp
    exact ⟨hpara, Or.inr ⟨h2, wordsAt_pos text _ _ h2⟩⟩
  · rw [he]
    unfold reachInv
    dsimp
    refine ⟨h3, ?_⟩
    cases hs : sentencesAt text (p.paragraphIndex + 1) with
    | nil => exact Or.inl ⟨rfl, rfl, rfl⟩
    | cons s rest =>
      refine Or.inr ⟨by simp, ?_⟩
      exact wordsAt_pos text _ 0 (by rw [hs]; simp)
  · rw [he]
    exact ⟨hpara, hrest⟩

/-! ## A rank that strictly decreases along non-trivial steps -/

/-- Word count of every sentence of paragraph k. -/
def sentWordCounts (text : String) (k : Nat) : List Nat :=
  (sentencesAt text k).map (fun s => (splitWords s).length)

/-- Total word count of paragraph k. -/
def paraWords (text : String) (k : Nat) : Nat :=
  (sentWordCounts text k).sum

/-- Sum of f over the interval of indices starting at the first argument
with the length given by the second. -/
def tailSum (f : Nat → Nat) : Nat → Nat → Nat
  | _, 0 => 0
  | k, m + 1 => f k + tailSum f (k + 1) m

theorem tailSum_step (f : Nat → Nat) (k N : Nat) (h : k < N) :
    tailSum f k (N - k) = f k + tailSum f (k + 1) (N - (k + 1)) := by
  have hm : N - k = (N - (k + 1)) + 1 := by omega
  rw [hm]
  rfl

theorem drop_sum_decomp : ∀ (l : List Nat) (j : Nat), j < l.length →
    (l.drop j).sum = l.getD j 0 + (l.drop (j + 1)).sum
  | [], j, h => by simp at h
  | a :: l, 0, _ => by simp
  | a :: l, j + 1, h => by
    simp only [List.drop_succ_cons, List.getD_cons_succ]
    exact drop_sum_decomp l j (by simpa using h)

theorem sentWordCounts_length (text : String) (k : Nat) :
    (sentWordCounts text k).length = (sentencesAt text k).length := by
  unfold sentWordCounts
  rw [List.length_map]

theorem sentWordCounts_getD (text : String) (k j : Nat)
    (hj : j < (sentencesAt text k).length) :
    (sentWordCounts text k).getD j 0 = (wordsAt text k j).length := by
  unfold sentWordCounts wordsAt
  cases hg : (sentencesAt text k).get? j with
  | none =>
    have := List.get?_eq_none.mp hg
    omega
  | some s =>
    rw [getD_eq_get?_getD, List.get?_map, hg]
    rfl

/-- Remaining advance capacity from a position: paragraphs not yet
entered (each at least one step), all words of the paragraphs after the
current one, the words of the later sentences of the current paragraph,
and the words after the cursor in the current sentence. -/
def navRank (text : String) (p : ReadingPosition) : Nat :=
  ((paragraphsOf text).length - 1 - p.paragraphIndex) +
  tailSum (paraWords text) (p.paragraphIndex + 1)
    ((paragraphsOf text).length - (p.paragraphIndex + 1)) +
  ((sentWordCounts text p.paragraphIndex).drop (p.sentenceIndex + 1)).sum +
  ((wordsAt text p.paragraphIndex p.sentenceIndex).length - p.wordIndex - 1)

theorem para_entry_bound (text : String) (k : Nat) :
    ((sentWordCounts text k).drop 1).sum + ((wordsAt text k 0).length - 1) ≤
      paraWords text k := by
  unfold paraWords
  cases hs : sentencesAt text k with
  | nil =>
    have hw : wordsAt text k 0 = [] := wordsAt_nil_of_no_sentences text k 0 hs
    simp [sentWordCounts, hs, hw]
  | cons s rest =>
    have hc : sentWordCounts text k =
        (splitWords s).length :: rest.map (fun x => (splitWords x).length) := by
      unfold sentWordCounts
      rw [hs]
      rfl
    have hw : (wordsAt text k 0).length = (splitWords s).length := by
      unfold wordsAt
      rw [hs]
      rfl
    rw [hc, hw]
    simp only [List.drop_succ_cons, List.drop_zero, List.sum_cons]
    omega

theorem navRank_decrease (text : String) (p : ReadingPosition)
    (hinv : reachInv text p) (hne : moveToNextWord text p ≠ p) :
    navRank text (moveToNextWord text p) < navRank text p := by
  obtain ⟨hpara, hrest⟩ := hinv
  rcases moveToNextWord_cases text p with ⟨h1, he⟩ | ⟨h1, h2, he⟩ | ⟨h1, h2, h3, he⟩ | ⟨_, _, _, he⟩
  · -- word advance: only the word term changes
    rw [he]
    unfold getCurrentWords at h1
    unfold navRank
    dsimp
    omega
  · -- sentence advance
    rw [he]
    unfold getCurrentWords at h1
    unfold getCurrentSentences at h2
    unfold navRank
    dsimp
    have hlen : p.sentenceIndex + 1 < (sentWordCounts text p.paragraphIndex).length := by
      rw [sentWordCounts_length]
      exact h2
    have hdec := drop_sum_decomp (sentWordCounts text p.paragraphIndex)
      (p.sentenceIndex + 1) hlen
    have hgd := sentWordCounts_getD text p.paragraphIndex (p.sentenceIndex + 1) h2
    have hpos := wordsAt_pos text p.paragraphIndex (p.sentenceIndex + 1) h2
    omega
  · -- paragraph advance
    rw [he]
    unfold getCurrentWords at h1
    unfold getCurrentSentences at h2
    unfold navRank
    dsimp
    have hts := tailSum_step (paraWords text) (p.paragraphIndex + 1)
      ((paragraphsOf text).length) h3
    have hdrop : (sentWordCounts text p.paragraphIndex).drop (p.sentenceIndex + 1) = [] := by
      refine List.drop_eq_nil_of_le ?_
      rw [sentWordCounts_length]
      omega
    have hbound := para_entry_bound text (p.paragraphIndex + 1)
    rw [hts, hdrop]
    simp only [List.sum_nil]
    omega
  · exact absurd he hne

/-! ## The terminal state is exactly docEnd -/

theorem fixed_eq_docEnd (text : String) (p : ReadingPosition)
    (hinv : reachInv text p)
    (H : sentencesAt text ((paragraphsOf text).length - 1) ≠ [])
    (hfix : moveToNextWord text p = p) :
    p = docEnd text := by
  obtain ⟨hpara, hrest⟩ := hinv
  rcases moveToNextWord_cases text p with ⟨_, he⟩ | ⟨_, _, he⟩ | ⟨_, _, _, he⟩ | ⟨h1, h2, h3, _⟩
  · rw [hfix] at he
    have := congrArg ReadingPosition.wordIndex he
    dsimp at this
    omega
  · rw [hfix] at he
    have := congrArg ReadingPosition.sentenceIndex he
    dsimp at this
    omega
  · rw [hfix] at he
    have := congrArg ReadingPosition.paragraphIndex he
    dsimp at this
    omega
  · unfold getCurrentWords at h1
    unfold getCurrentSentences at h2
    have hplast : p.paragraphIndex = (paragraphsOf text).length - 1 := by omega
    rcases hrest with ⟨hs, _, _⟩ | ⟨hs, hw⟩
    · rw [hplast] at hs
      exact absurd hs H
    · obtain ⟨pp, ps, pw⟩ := p
      dsimp at hplast hs hw h1 h2 ⊢
      subst hplast
      unfold docEnd
      have hsl : ps = (sentencesAt text ((paragraphsOf text).length - 1)).length - 1 := by
        omega
      subst hsl
      have hwl : pw =
          (wordsAt text ((paragraphsOf text).length - 1)
            ((sentencesAt text ((paragraphsOf text).length - 1)).length - 1)).length - 1 := by
        omega
      subst hwl
      rfl

theorem docEnd_fixed (text : String) :
    moveToNextWord text (docEnd text) = docEnd text := by
  have hN := paragraphsOf_pos text
  rcases moveToNextWord_cases text (docEnd text) with
    ⟨h1, _⟩ | ⟨h1, h2, _⟩ | ⟨h1, h2, h3, _⟩ | ⟨_, _, _, he⟩
  · exfalso
    unfold getCurrentWords docEnd at h1
    dsimp at h1
    omega
  · exfalso
    unfold getCurrentSentences docEnd at h2
    dsimp at h2
    omega
  · exfalso
    unfold docEnd at h3
    dsimp at h3
    omega
  · exact he

theorem reach_docEnd (text : String)
    (H : sentencesAt text ((paragraphsOf text).length - 1) ≠ []) :
    ∀ (m : Nat) (p : ReadingPosition), reachInv text p → navRank text p ≤ m →
      ∃ n, (moveToNextWord text)^[n] p = docEnd text := by
  intro m
  induction m with
  | zero =>
    intro p hinv hr
    by_cases hfix : moveToNextWord text p = p
    · exact ⟨0, by simpa using fixed_eq_docEnd text p hinv H hfix⟩
    · have := navRank_decrease text p hinv hfix
      omega
  | succ m ih =>
    intro p hinv hr
    by_cases hfix : moveToNextWord text p = p
    · exact ⟨0, by simpa using fixed_eq_docEnd text p hinv H hfix⟩
    · have hdec := navRank_decrease text p hinv hfix
      obtain ⟨n, hn⟩ := ih (moveToNextWord text p) (reachInv_step text p ⟨hinv.1, hinv.2⟩) (by omega)
      exact ⟨n + 1, by rw [Function.iterate_succ_apply]; exact hn⟩

/-! ## Claim C4 -/

/-- Claim C4 (confirmed, for documents whose last paragraph has at least
one sentence, so that "the last word of the last sentence of the last
paragraph" denotes): every moveToNextWord step either strictly increases
the position in document order or leaves it unchanged; iterating from
(0,0,0) reaches docEnd; and a further call at docEnd is a no-op. -/
theorem moveToNextWord_monotone_terminal (text : String)
    (H : sentencesAt text ((paragraphsOf text).length - 1) ≠ []) :
    (∀ p, moveToNextWord text p = p ∨ posLex p (moveToNextWord text p)) ∧
    (∃ n, (moveToNextWord text)^[n] (⟨0, 0, 0⟩ : ReadingPosition) = docEnd text) ∧
    moveToNextWord text (docEnd text) = docEnd text := by
  refine ⟨moveToNextWord_mono text, ?_, docEnd_fixed text⟩
  exact reach_docEnd text H (navRank text ⟨0, 0, 0⟩) ⟨0, 0, 0⟩ (reachInv_init text) le_rfl

/-- Witness for C4 on a two-paragraph document. -/
theorem moveToNextWord_monotone_terminal_witness :
    sentencesAt "Hi. Yo.\nB c." ((paragraphsOf "Hi. Yo.\nB c.").length - 1) ≠ [] ∧
    ((∀ p, moveToNextWord "Hi. Yo.\nB c." p = p ∨
        posLex p (moveToNextWord "Hi. Yo.\nB c." p)) ∧
     (∃ n, (moveToNextWord "Hi. Yo.\nB c.")^[n] (⟨0, 0, 0⟩ : ReadingPosition) =
        docEnd "Hi. Yo.\nB c.") ∧
     moveToNextWord "Hi. Yo.\nB c." (docEnd "Hi. Yo.\nB c.") =
       docEnd "Hi. Yo.\nB c.") :=
  ⟨by decide, moveToNextWord_monotone_terminal "Hi. Yo.\nB c." (by decide)⟩

/-! ## Claim C5 -/

theorem moveNext_then_movePrev (text : String) (p : ReadingPosition)
    (hv : validPos text p) (hne : moveToNextWord text p ≠ p) :
    moveToPreviousWord text (moveToNextWord text p) = some p := by
  obtain ⟨pp, ps, pw⟩ := p
  obtain ⟨hp, hs, hw⟩ := hv
  unfold getCurrentSentences at hs
  unfold getCurrentWords at hw
  dsimp at hp hs hw
  have h0 : ¬ (0 : Nat) < 0 := by omega
  have hget : (sentencesAt text pp).get? ps =
      some ((sentencesAt text pp).get ⟨ps, hs⟩) := List.get?_eq_get hs
  have hwa : wordsAt text pp ps =
      splitWords ((sentencesAt text pp).get ⟨ps, hs⟩) := by
    unfold wordsAt
    rw [hget]
  simp only [List.get_eq_getElem] at hget hwa
  rcases moveToNextWord_cases text ⟨pp, ps, pw⟩ with
    ⟨h1, he⟩ | ⟨h1, h2, he⟩ | ⟨h1, h2, h3, he⟩ | ⟨_, _, _, he⟩
  · dsimp at he
    rw [he]
    unfold moveToPreviousWord
    dsimp
    rw [if_pos (by omega : 0 < pw + 1)]
  · unfold getCurrentWords at h1
    unfold getCurrentSentences at h2
    dsimp at h1 h2 he
    rw [he]
    unfold moveToPreviousWord
    unfold getCurrentSentences
    dsimp
    rw [if_pos (by omega : 0 < ps + 1)]
    rw [hget]
    rw [hwa] at h1 hw
    dsimp
    simp only [Option.some.injEq, ReadingPosition.mk.injEq, true_and]
    omega
  · unfold getCurrentWords at h1
    unfold getCurrentSentences at h2
    dsimp at h1 h2 he
    rw [he]
    unfold moveToPreviousWord
    dsimp
    rw [if_pos (by omega : 0 < pp + 1)]
    have hpget : (paragraphsOf text).get? pp =
        some ((paragraphsOf text).get ⟨pp, hp⟩) := List.get?_eq_get hp
    rw [hpget]
    have hpara_eq : (paragraphsOf text).getD pp "" =
        (paragraphsOf text).get ⟨pp, hp⟩ := by
      rw [getD_eq_get?_getD, hpget]
      rfl
    have hsent_eq : splitIntoSentences ((paragraphsOf text).get ⟨pp, hp⟩) =
        sentencesAt text pp := by
      unfold sentencesAt
      rw [hpara_eq]
    simp only [List.get_eq_getElem] at hsent_eq
    dsimp
    rw [hsent_eq]
    have hips : (sentencesAt text pp).length - 1 = ps := by omega
    rw [hips, hget]
    rw [hwa] at h1 hw
    dsimp
    simp only [Option.some.injEq, ReadingPosition.mk.injEq, true_and]
    omega
  · exact absurd he hne

/-- Claim C5 (confirmed): from any valid interior position (neither the
document start nor the terminal document end), moveToNextWord followed by
moveToPreviousWord returns exactly the original triple; at the start
boundary the inverse (moveToPreviousWord) is a no-op and at the end
boundary the forward operation is a no-op. -/
theorem moveNext_movePrev_roundtrip (text : String) (p : ReadingPosition)
    (hv : validPos text p) (_hstart : p ≠ ⟨0, 0, 0⟩)
    (hne : moveToNextWord text p ≠ p) :
    moveToPreviousWord text (moveToNextWord text p) = some p ∧
    moveToPreviousWord text ⟨0, 0, 0⟩ = some ⟨0, 0, 0⟩ ∧
    moveToNextWord text (docEnd text) = docEnd text :=
  ⟨moveNext_then_movePrev text p hv hne, rfl, docEnd_fixed text⟩

/-- Witness for C5 at the second word of the first sentence of
"A b. C.". -/
theorem moveNext_movePrev_roundtrip_witness :
    validPos "A b. C." ⟨0, 0, 1⟩ ∧
    (⟨0, 0, 1⟩ : ReadingPosition) ≠ ⟨0, 0, 0⟩ ∧
    moveToNextWord "A b. C." ⟨0, 0, 1⟩ ≠ ⟨0, 0, 1⟩ ∧
    (moveToPreviousWord "A b. C." (moveToNextWord "A b. C." ⟨0, 0, 1⟩) =
        some ⟨0, 0, 1⟩ ∧
     moveToPreviousWord "A b. C." ⟨0, 0, 0⟩ = some ⟨0, 0, 0⟩ ∧
     moveToNextWord "A b. C." (docEnd "A b. C.") = docEnd "A b. C.") :=
  ⟨by decide, by decide, by decide,
    moveNext_movePrev_roundtrip "A b. C." ⟨0, 0, 1⟩ (by decide) (by decide) (by decide)⟩

end BookReader
